import Mathlib

/-!
Verification of the rule-based safe-correction pipeline of `src/app.py`
(`tokenize_with_positions`, `is_probable_proper_noun`, `safe_spell_correct`,
`basic_grammar_checks`).  Text is embedded as `List Char`; the external
spelling dictionary (the `spellchecker` library) is a black-box parameter
with the contract of §6 of the design document: a pointwise unknown-word
predicate and a best-suggestion function.

Character classification follows Python semantics restricted to the
character sets the program actually manipulates (the regexes in the source
use the ASCII classes `[A-Za-z']`, `[0-9]`; `\w`, `\s`, `str.lower`,
`str.isupper` are modelled on their ASCII/common-control behaviour).
-/

namespace EnglishApp

/-- ASCII uppercase letter. -/
def isAsciiUpper (c : Char) : Bool := 'A' ≤ c && c ≤ 'Z'

/-- ASCII lowercase letter. -/
def isAsciiLower (c : Char) : Bool := 'a' ≤ c && c ≤ 'z'

/-- ASCII letter. -/
def isAsciiAlpha (c : Char) : Bool := isAsciiUpper c || isAsciiLower c

/-- ASCII digit. -/
def isAsciiDigit (c : Char) : Bool := '0' ≤ c && c ≤ '9'

/-- A character of the regex class `[A-Za-z']` (first alternative of the
tokenizing pattern in `tokenize_with_positions`). -/
def isWordRunChar (c : Char) : Bool := isAsciiAlpha c || c = '\''

/-- The regex class `\w` (word character): letter, digit or underscore. -/
def isWordChar (c : Char) : Bool := isAsciiAlpha c || isAsciiDigit c || c = '_'

/-- Python line-break characters recognised by `str.splitlines`. -/
def isLineBreak (c : Char) : Bool :=
  c = '\n' || c = '\r' || c = '\x0b' || c = '\x0c' ||
  c = '\x1c' || c = '\x1d' || c = '\x1e' || c = '\x85' ||
  c = '\u2028' || c = '\u2029'

/-- Python whitespace (the class `\s` / the characters removed by
`str.strip`): space, tab, and the line-break characters. -/
def isPySpace (c : Char) : Bool :=
  c = ' ' || c = '\t' || c = '\x1f' || isLineBreak c

/-- Python `str.lower` (ASCII behaviour). -/
def lowerStr (s : List Char) : List Char := s.map Char.toLower

/-- A token of `tokenize_with_positions`: surface text, start offset, end
offset, with the offsets a half-open interval into the original text. -/
abbrev Tok := List Char × Nat × Nat

/-- One pass of `re.finditer(r"[A-Za-z']+|[0-9]+|[^\w\s]", text)`: at each
position try, in order, a maximal run of `[A-Za-z']`, a maximal run of
digits, then a single character that is neither a word character nor
whitespace; positions matching no alternative are skipped.  The fuel
argument (instantiated with the text length, an upper bound on the number
of scan steps) makes the recursion structural. -/
def tokenizeFuel : Nat → List Char → Nat → List Tok
  | 0, _, _ => []
  | _, [], _ => []
  | fuel + 1, c :: rest, i =>
    if isWordRunChar c then
      let run := rest.takeWhile isWordRunChar
      (c :: run, i, i + 1 + run.length) ::
        tokenizeFuel fuel (rest.drop run.length) (i + 1 + run.length)
    else if isAsciiDigit c then
      let run := rest.takeWhile isAsciiDigit
      (c :: run, i, i + 1 + run.length) ::
        tokenizeFuel fuel (rest.drop run.length) (i + 1 + run.length)
    else if !isWordChar c && !isPySpace c then
      ([c], i, i + 1) :: tokenizeFuel fuel rest (i + 1)
    else
      tokenizeFuel fuel rest (i + 1)

/-- `tokenize_with_positions` of `src/app.py`: the list of
`(m.group(0), m.start(), m.end())` triples of the finditer scan. -/
def tokenize_with_positions (text : List Char) : List Tok :=
  tokenizeFuel text.length text 0

/-- Python `str.isupper`: at least one cased character, and every cased
character uppercase (ASCII cased characters are the letters). -/
def pyIsUpper (w : List Char) : Bool :=
  w.any isAsciiAlpha && w.all (fun c => !isAsciiAlpha c || isAsciiUpper c)

/-- Python `word[:1].isupper()`: the first character exists and is an
uppercase letter. -/
def firstCharIsUpper : List Char → Bool
  | [] => false
  | c :: _ => isAsciiUpper c

/-- `is_probable_proper_noun` of `src/app.py`: fully-uppercase of length at
most 6, or initial uppercase, or containing an `@`. -/
def is_probable_proper_noun (word original_text : List Char) : Bool :=
  if pyIsUpper word && decide (word.length ≤ 6) then true
  else if firstCharIsUpper word then true
  else if word.contains '@' then true
  else false

/-- The external spelling-dictionary capability (§6 of the design
document): a pointwise judgement of which lower-cased words are unknown,
and a best single-token correction suggestion (`none` models Python
`None`). -/
structure SpellDict where
  isUnknown : List Char → Bool
  correction : List Char → Option (List Char)

/-- Full match of the regex `[A-Za-z']+` (the word filter applied to
tokens in `safe_spell_correct`). -/
def isWordStr (t : List Char) : Bool := !t.isEmpty && t.all isWordRunChar

/-- The list comprehension
`[t[0] for t in tokens if re.fullmatch(r"[A-Za-z']+", t[0])]`. -/
def wordsOf (text : List Char) : List (List Char) :=
  ((tokenize_with_positions text).filter (fun t => isWordStr t.1)).map (·.1)

/-- `spell.unknown([w.lower() for w in words])`: the subset of the
lower-cased words judged misspelled (§6 contract: `unknown` returns the
subset of its argument the dictionary does not know; the Python set is
modelled as a list, only membership is ever used). -/
def misspelledOf (D : SpellDict) (text : List Char) : List (List Char) :=
  ((wordsOf text).map lowerStr).filter D.isUnknown

/-- A replacement triple `(start, end, replacementText)`. -/
abbrev Repl := Nat × Nat × List Char

/-- An issue record, with the fields `Type`, `Original`, `Suggestion`,
`Message` of the dictionaries built in `src/app.py`. -/
structure Issue where
  type : List Char
  original : List Char
  suggestion : List Char
  message : List Char
deriving DecidableEq, Repr

/-- The message `f"Possible misspelling: '{tok}' → '{suggestion}'"`. -/
def spellMessage (tok suggestion : List Char) : List Char :=
  "Possible misspelling: '".data ++ tok ++ "' → '".data ++ suggestion ++ "'".data

/-- The body of the collection loop of `safe_spell_correct` for one token:
`none` when the loop records nothing for it (the `continue` branches: not
an alphabetic word, not in the misspelled set, proper noun, length ≤ 2, no
suggestion, falsy (empty) suggestion, or suggestion equal to the word);
otherwise the replacement triple and the Spelling issue appended in the
same iteration. -/
def correctionFor (D : SpellDict) (text : List Char)
    (misspelled : List (List Char)) : Tok → Option (Repl × Issue)
  | (tok, s, e) =>
    if !isWordStr tok then none
    else
      let low := lowerStr tok
      if misspelled.contains low then
        if is_probable_proper_noun tok text then none
        else if tok.length ≤ 2 then none
        else
          match D.correction low with
          | none => none
          | some suggestion =>
            if !suggestion.isEmpty && suggestion != low then
              some ((s, e, suggestion),
                ⟨"Spelling".data, tok, suggestion, spellMessage tok suggestion⟩)
            else none
      else none

/-- The replacement/issue pairs collected by the loop of
`safe_spell_correct`, in token-scan order. -/
def collectCorrections (D : SpellDict) (text : List Char) :
    List (Repl × Issue) :=
  (tokenize_with_positions text).filterMap
    (correctionFor D text (misspelledOf D text))

/-- `corrected_parts[s:e] = list(rep)`: splice a replacement into the
character buffer (Python slice assignment; `take`/`drop` clamp exactly as
Python slices do). -/
def splice (l : List Char) (p : Repl) : List Char :=
  l.take p.1 ++ p.2.2 ++ l.drop p.2.1

/-- Stable insertion into a start-descending list: the inserted element —
which precedes the rest in the original list — settles before every entry
whose start is not larger, as Python's stable
`sorted(key=lambda x: x[0], reverse=True)` orders it. -/
def insertDescByStart (p : Repl) : List Repl → List Repl
  | [] => [p]
  | q :: rest =>
    if q.1 ≤ p.1 then p :: q :: rest else q :: insertDescByStart p rest

/-- `sorted(replacements, key=lambda x: x[0], reverse=True)`: a stable
sort, descending by start offset. -/
def sortDescByStart (l : List Repl) : List Repl :=
  l.foldr insertDescByStart []

/-- The application loop `for s, e, rep in sorted(...): corrected_parts[s:e] = list(rep)`. -/
def applyReplacements (text : List Char) (reps : List Repl) : List Char :=
  (sortDescByStart reps).foldl splice text

/-- `safe_spell_correct` of `src/app.py`: collect replacements and issues
over the token scan, apply the replacements back-to-front, return the
rebuilt string and the issues in scan order. -/
def safe_spell_correct (D : SpellDict) (text : List Char) :
    List Char × List Issue :=
  let pairs := collectCorrections D text
  (applyReplacements text (pairs.map (·.1)), pairs.map (·.2))

/-- Python `str.splitlines` scan: a line ends at any line-break character,
with `"\r\n"` consumed as a single break; a final fragment without a
trailing break is still a line; the empty string has no lines.  `acc`
holds the characters of the current line in reverse. -/
def splitlinesAux : List Char → List Char → List (List Char)
  | [], acc => if acc.isEmpty then [] else [acc.reverse]
  | c :: rest, acc =>
    if c = '\r' then
      match rest with
      | r2 :: rest2 =>
        if r2 = '\n' then acc.reverse :: splitlinesAux rest2 []
        else acc.reverse :: splitlinesAux (r2 :: rest2) []
      | [] => [acc.reverse]
    else if isLineBreak c then acc.reverse :: splitlinesAux rest []
    else splitlinesAux rest (c :: acc)

/-- Python `text.splitlines()`. -/
def pySplitlines (text : List Char) : List (List Char) :=
  splitlinesAux text []

/-- Python `str.strip()`: remove whitespace from both ends. -/
def pyStrip (l : List Char) : List Char :=
  ((l.dropWhile isPySpace).reverse.dropWhile isPySpace).reverse

/-- `joined = " ".join(ln.strip() for ln in text.splitlines() if ln.strip())`
(lines 141-142 of `src/app.py`). -/
def joinedOf (text : List Char) : List Char :=
  List.intercalate [' ']
    (((pySplitlines text).map pyStrip).filter (fun l => !l.isEmpty))

/-- Match of the regex `\bLIT\b` for a literal `LIT` whose first and last
characters are word characters (true of every pattern in the rule table):
the literal occurs at position `i` and is not adjacent to a word character
on either side. -/
def wordPatMatchAt (text pat : List Char) (i : Nat) : Bool :=
  ((text.drop i).take pat.length == pat) &&
  (i == 0 || !isWordChar (text.getD (i - 1) ' ')) &&
  !isWordChar (text.getD (i + pat.length) ' ')

/-- `re.search(r"\bLIT\b", text)`: the position of the leftmost match, if
any. -/
def searchWordPat (text pat : List Char) : Option Nat :=
  (List.range (text.length + 1)).find? (wordPatMatchAt text pat)

/-- The fixed rule table of `basic_grammar_checks` (the literal core of
each `\b...\b` pattern, its fixed replacement, and its message; the
parentheses in `\b(today class is)\b` only group, so `group(0)` is the
same literal). -/
def grammarRules : List (List Char × List Char × List Char) :=
  [ ("oman are".data, "Oman is".data,
     "Subject–verb agreement: 'Oman is' not 'Oman are'.".data),
    ("today class is".data, "Today's class is".data,
     "Use possessive form: 'Today's class'.".data),
    ("i wnat".data, "I want".data,
     "Common misspelling/phrase correction: 'I want'.".data),
    ("evry".data, "every".data, "Common misspelling: 'every'.".data),
    ("contry".data, "country".data, "Common misspelling: 'country'.".data) ]

/-- The four issue groups of `basic_grammar_checks`, computed from the
already-joined text: missing final punctuation, missing initial capital,
the pattern-rule table over the lower-cased text (one issue per matching
rule, `Original` the matched text of the first match), and the
Oman/located-in-jordan fact check. -/
def grammarIssuesOfJoined (joined : List Char) : List Issue :=
  let punct : List Issue :=
    match joined.getLast? with
    | none => []
    | some c =>
      if c = '.' || c = '!' || c = '?' then []
      else [⟨"Grammar".data, joined.drop (joined.length - 20), joined ++ ['.'],
             "Sentence may be missing ending punctuation.".data⟩]
  let capital : List Issue :=
    match joined with
    | [] => []
    | c :: rest =>
      if isAsciiLower c then
        [⟨"Grammar".data, joined.take 20, Char.toUpper c :: rest,
          "Start sentences with a capital letter.".data⟩]
      else []
  let joinedLow := lowerStr joined
  let table : List Issue :=
    grammarRules.filterMap (fun rule =>
      match searchWordPat joinedLow rule.1 with
      | none => none
      | some i =>
        some ⟨"Grammar".data, (joinedLow.drop i).take rule.1.length,
              rule.2.1, rule.2.2⟩)
  let location : List Issue :=
    if (searchWordPat joinedLow "oman".data).isSome &&
       (searchWordPat joinedLow "located in jordan".data).isSome then
      [⟨"Grammar".data, "located in jordan".data,
        "located in the Middle East (on the Arabian Peninsula).".data,
        "Factual geography note: Oman is not located in Jordan.".data⟩]
    else []
  punct ++ capital ++ table ++ location

/-- `basic_grammar_checks` of `src/app.py`. -/
def basic_grammar_checks (text : List Char) : List Issue :=
  grammarIssuesOfJoined (joinedOf text)

/-- The replacement triples collected by one spelling pass. -/
def spellReplacements (D : SpellDict) (text : List Char) : List Repl :=
  (collectCorrections D text).map (·.1)

/-- Non-overlapping edits in ascending order: each triple starts at or
after `lo` and after the previous edit's end, is a nonempty span, and ends
within a text of length `len`. -/
def chainedEditsB : Nat → Nat → List Repl → Bool
  | _, _, [] => true
  | lo, len, (s, e, _) :: rest =>
    decide (lo ≤ s) && decide (s < e) && decide (e ≤ len) &&
      chainedEditsB e len rest

/-- Modelled from the spec: simultaneous application of non-overlapping
(start, end, replacement) triples, as §8 of the design document words it —
the output copies each untouched region of the original unchanged
(`text[pos:start)` between edits and `text[pos:]` after the last one) and
shows each replacement text in place of its `[start, end)` span. -/
def applyEditsSpec (text : List Char) : List Repl → Nat → List Char
  | [], pos => text.drop pos
  | (s, e, r) :: rest, pos =>
    (text.take s).drop pos ++ r ++ applyEditsSpec text rest e

/-- Modelled from the spec: the per-token condition of §4.3 step 3 under
which a Spelling issue is recorded — the token is an alphabetic word, its
lower-cased form is judged unknown by the dictionary, the do-not-touch
heuristic does not fire, the token is longer than 2 characters, and the
dictionary returns a (nonempty) suggestion different from the lower-cased
token — together with the exact issue record the spec prescribes. -/
def claimSpellIssue (D : SpellDict) (text : List Char) : Tok → Option Issue
  | (tok, _, _) =>
    match D.correction (lowerStr tok) with
    | none => none
    | some suggestion =>
      if isWordStr tok = true ∧ D.isUnknown (lowerStr tok) = true ∧
         is_probable_proper_noun tok text = false ∧ 2 < tok.length ∧
         suggestion ≠ [] ∧ suggestion ≠ lowerStr tok then
        some ⟨"Spelling".data, tok, suggestion, spellMessage tok suggestion⟩
      else none

/-- A dictionary for concrete witnesses: every word unknown, every word
suggested `"the"`. -/
def allUnknownDict : SpellDict :=
  { isUnknown := fun _ => true
    correction := fun _ => some "the".data }

/-- A dictionary for concrete witnesses, consistent with the behaviour the
spec's `"evry contry need educaton"` example presupposes: exactly
`"educaton"` is unknown, with suggestion `"education"`. -/
def eduDict : SpellDict :=
  { isUnknown := fun w => w == "educaton".data
    correction := fun w =>
      if w == "educaton".data then some "education".data else none }

/-- A dictionary for concrete witnesses whose two unknown words suggest
each other, so a second corrector run still emits an issue. -/
def flipDict : SpellDict :=
  { isUnknown := fun w => w == "aaaa".data || w == "bbbb".data
    correction := fun w =>
      if w == "aaaa".data then some "bbbb".data
      else if w == "bbbb".data then some "aaaa".data
      else none }

/-! ### Character-class facts -/

/-- Whitespace matches neither of the two run alternatives of the
tokenizing regex. -/
theorem space_not_run_char {c : Char} (h : isPySpace c = true) :
    isWordRunChar c = false ∧ isAsciiDigit c = false := by
  simp only [isPySpace, isLineBreak, Bool.or_eq_true, decide_eq_true_eq] at h
  casesm* _ ∨ _ <;> subst_vars <;> exact ⟨by decide, by decide⟩

/-- A `[A-Za-z']` character is not whitespace. -/
theorem wordRun_not_space {c : Char} (h : isWordRunChar c = true) :
    isPySpace c = false := by
  cases hs : isPySpace c with
  | false => rfl
  | true => exact absurd h (by simp [(space_not_run_char hs).1])

/-- A digit is not whitespace. -/
theorem digit_not_space {c : Char} (h : isAsciiDigit c = true) :
    isPySpace c = false := by
  cases hs : isPySpace c with
  | false => rfl
  | true => exact absurd h (by simp [(space_not_run_char hs).2])

/-! ### Tokenizer invariants -/

/-- Dropping `s - i` characters from `c :: rest` when `s` is beyond `i`
drops `s - (i + 1)` characters from `rest`. -/
theorem drop_cons_shift {α : Type} (c : α) (rest : List α) {s i : Nat}
    (h : i + 1 ≤ s) :
    (c :: rest).drop (s - i) = rest.drop (s - (i + 1)) := by
  obtain ⟨m, hm⟩ : ∃ m, s - i = m + 1 := ⟨s - i - 1, by omega⟩
  rw [hm, List.drop_succ_cons, show s - (i + 1) = m by omega]

/-- Every token of the fuel-driven scan starts at or after the scan
position, has a nonempty span ending within the scanned suffix, records
exactly the slice of the text at its span, and contains no whitespace. -/
theorem tokenizeFuel_mem :
    ∀ (fuel : Nat) (l : List Char) (i : Nat), l.length ≤ fuel →
    ∀ p ∈ tokenizeFuel fuel l i,
      i ≤ p.2.1 ∧ p.2.1 < p.2.2 ∧ p.2.2 ≤ i + l.length ∧
      p.1 = (l.drop (p.2.1 - i)).take (p.2.2 - p.2.1) ∧ p.1 ≠ [] ∧
      ∀ c ∈ p.1, isPySpace c = false
  | 0, _, _, _, p, hp => by simp [tokenizeFuel] at hp
  | _ + 1, [], _, _, p, hp => by simp [tokenizeFuel] at hp
  | fuel + 1, c :: rest, i, hl, p, hp => by
    have hrest : rest.length ≤ fuel := by
      simp only [List.length_cons] at hl; omega
    simp only [tokenizeFuel] at hp
    by_cases hc1 : isWordRunChar c
    · rw [if_pos hc1] at hp
      have hklen : (rest.takeWhile isWordRunChar).length ≤ rest.length :=
        List.IsPrefix.length_le (List.takeWhile_prefix _)
      rcases List.mem_cons.mp hp with rfl | hp
      · have htw : rest.takeWhile isWordRunChar
            = rest.take (rest.takeWhile isWordRunChar).length :=
          List.prefix_iff_eq_take.mp (List.takeWhile_prefix _)
        refine ⟨Nat.le_refl i, ?_, ?_, ?_, ?_, ?_⟩
        · show i < i + 1 + (rest.takeWhile isWordRunChar).length
          omega
        · show i + 1 + (rest.takeWhile isWordRunChar).length
            ≤ i + (c :: rest).length
          simp only [List.length_cons]; omega
        · show c :: rest.takeWhile isWordRunChar
            = ((c :: rest).drop (i - i)).take
                (i + 1 + (rest.takeWhile isWordRunChar).length - i)
          rw [Nat.sub_self, List.drop_zero,
            show i + 1 + (rest.takeWhile isWordRunChar).length - i
              = (rest.takeWhile isWordRunChar).length + 1 by omega,
            List.take_succ_cons]
          exact congrArg (c :: ·) htw
        · show c :: rest.takeWhile isWordRunChar ≠ []
          simp
        · show ∀ c' ∈ c :: rest.takeWhile isWordRunChar, isPySpace c' = false
          intro c' hc'
          rcases List.mem_cons.mp hc' with rfl | hc'
          · exact wordRun_not_space hc1
          · exact wordRun_not_space (List.mem_takeWhile_imp hc')
      · have hdl :
            (rest.drop (rest.takeWhile isWordRunChar).length).length ≤ fuel := by
          simp only [List.length_drop]; omega
        obtain ⟨h1, h2, h3, h4, h5, h6⟩ :=
          tokenizeFuel_mem fuel _ _ hdl p hp
        simp only [List.length_drop] at h3
        refine ⟨by omega, h2, ?_, ?_, h5, h6⟩
        · simp only [List.length_cons]; omega
        · rw [h4, List.drop_drop, drop_cons_shift c rest (by omega),
            show (rest.takeWhile isWordRunChar).length
                + (p.2.1 - (i + 1 + (rest.takeWhile isWordRunChar).length))
              = p.2.1 - (i + 1) by omega]
    · rw [if_neg hc1] at hp
      by_cases hc2 : isAsciiDigit c
      · rw [if_pos hc2] at hp
        have hklen : (rest.takeWhile isAsciiDigit).length ≤ rest.length :=
          List.IsPrefix.length_le (List.takeWhile_prefix _)
        rcases List.mem_cons.mp hp with rfl | hp
        · have htw : rest.takeWhile isAsciiDigit
              = rest.take (rest.takeWhile isAsciiDigit).length :=
            List.prefix_iff_eq_take.mp (List.takeWhile_prefix _)
          refine ⟨Nat.le_refl i, ?_, ?_, ?_, ?_, ?_⟩
          · show i < i + 1 + (rest.takeWhile isAsciiDigit).length
            omega
          · show i + 1 + (rest.takeWhile isAsciiDigit).length
              ≤ i + (c :: rest).length
            simp only [List.length_cons]; omega
          · show c :: rest.takeWhile isAsciiDigit
              = ((c :: rest).drop (i - i)).take
                  (i + 1 + (rest.takeWhile isAsciiDigit).length - i)
            rw [Nat.sub_self, List.drop_zero,
              show i + 1 + (rest.takeWhile isAsciiDigit).length - i
                = (rest.takeWhile isAsciiDigit).length + 1 by omega,
              List.take_succ_cons]
            exact congrArg (c :: ·) htw
          · show c :: rest.takeWhile isAsciiDigit ≠ []
            simp
          · show ∀ c' ∈ c :: rest.takeWhile isAsciiDigit, isPySpace c' = false
            intro c' hc'
            rcases List.mem_cons.mp hc' with rfl | hc'
            · exact digit_not_space hc2
            · exact digit_not_space (List.mem_takeWhile_imp hc')
        · have hdl :
              (rest.drop (rest.takeWhile isAsciiDigit).length).length ≤ fuel := by
            simp only [List.length_drop]; omega
          obtain ⟨h1, h2, h3, h4, h5, h6⟩ :=
            tokenizeFuel_mem fuel _ _ hdl p hp
          simp only [List.length_drop] at h3
          refine ⟨by omega, h2, ?_, ?_, h5, h6⟩
          · simp only [List.length_cons]; omega
          · rw [h4, List.drop_drop, drop_cons_shift c rest (by omega),
              show (rest.takeWhile isAsciiDigit).length
                  + (p.2.1 - (i + 1 + (rest.takeWhile isAsciiDigit).length))
                = p.2.1 - (i + 1) by omega]
      · rw [if_neg hc2] at hp
        by_cases hc3 : (!isWordChar c && !isPySpace c) = true
        · rw [if_pos hc3] at hp
          rcases List.mem_cons.mp hp with rfl | hp
          · refine ⟨Nat.le_refl i, ?_, ?_, ?_, ?_, ?_⟩
            · show i < i + 1
              omega
            · show i + 1 ≤ i + (c :: rest).length
              simp only [List.length_cons]; omega
            · show [c] = ((c :: rest).drop (i - i)).take (i + 1 - i)
              rw [Nat.sub_self, List.drop_zero,
                show i + 1 - i = 0 + 1 by omega,
                List.take_succ_cons, List.take_zero]
            · show [c] ≠ []
              simp
            · show ∀ c' ∈ [c], isPySpace c' = false
              intro c' hc'
              simp only [List.mem_singleton] at hc'
              subst hc'
              simp only [Bool.and_eq_true, Bool.not_eq_true'] at hc3
              exact hc3.2
          · obtain ⟨h1, h2, h3, h4, h5, h6⟩ :=
              tokenizeFuel_mem fuel rest (i + 1) hrest p hp
            refine ⟨by omega, h2, ?_, ?_, h5, h6⟩
            · simp only [List.length_cons]; omega
            · rw [h4, drop_cons_shift c rest (by omega)]
        · rw [if_neg hc3] at hp
          obtain ⟨h1, h2, h3, h4, h5, h6⟩ :=
            tokenizeFuel_mem fuel rest (i + 1) hrest p hp
          refine ⟨by omega, h2, ?_, ?_, h5, h6⟩
          · simp only [List.length_cons]; omega
          · rw [h4, drop_cons_shift c rest (by omega)]

/-- Tokens of the fuel-driven scan are produced in ascending,
non-overlapping span order. -/
theorem tokenizeFuel_pairwise :
    ∀ (fuel : Nat) (l : List Char) (i : Nat), l.length ≤ fuel →
      (tokenizeFuel fuel l i).Pairwise (fun a b => a.2.2 ≤ b.2.1)
  | 0, _, _, _ => by simp [tokenizeFuel]
  | _ + 1, [], _, _ => by simp [tokenizeFuel]
  | fuel + 1, c :: rest, i, hl => by
    have hrest : rest.length ≤ fuel := by
      simp only [List.length_cons] at hl; omega
    simp only [tokenizeFuel]
    by_cases hc1 : isWordRunChar c
    · rw [if_pos hc1]
      have hklen : (rest.takeWhile isWordRunChar).length ≤ rest.length :=
        List.IsPrefix.length_le (List.takeWhile_prefix _)
      have hdl :
          (rest.drop (rest.takeWhile isWordRunChar).length).length ≤ fuel := by
        simp only [List.length_drop]; omega
      exact List.Pairwise.cons
        (fun b hb => (tokenizeFuel_mem fuel _ _ hdl b hb).1)
        (tokenizeFuel_pairwise fuel _ _ hdl)
    · rw [if_neg hc1]
      by_cases hc2 : isAsciiDigit c
      · rw [if_pos hc2]
        have hklen : (rest.takeWhile isAsciiDigit).length ≤ rest.length :=
          List.IsPrefix.length_le (List.takeWhile_prefix _)
        have hdl :
            (rest.drop (rest.takeWhile isAsciiDigit).length).length ≤ fuel := by
          simp only [List.length_drop]; omega
        exact List.Pairwise.cons
          (fun b hb => (tokenizeFuel_mem fuel _ _ hdl b hb).1)
          (tokenizeFuel_pairwise fuel _ _ hdl)
      · rw [if_neg hc2]
        by_cases hc3 : (!isWordChar c && !isPySpace c) = true
        · rw [if_pos hc3]
          exact List.Pairwise.cons
            (fun b hb => (tokenizeFuel_mem fuel rest (i + 1) hrest b hb).1)
            (tokenizeFuel_pairwise fuel rest (i + 1) hrest)
        · rw [if_neg hc3]
          exact tokenizeFuel_pairwise fuel rest (i + 1) hrest

/-- Every token is an alphabetic-or-apostrophe run, a digit run, or a
single non-word symbol. -/
theorem tokenizeFuel_classify :
    ∀ (fuel : Nat) (l : List Char) (i : Nat), ∀ p ∈ tokenizeFuel fuel l i,
      p.1.all isWordRunChar = true ∨ p.1.all isAsciiDigit = true ∨
        ∃ c, p.1 = [c] ∧ isWordChar c = false
  | 0, _, _, p, hp => by simp [tokenizeFuel] at hp
  | _ + 1, [], _, p, hp => by simp [tokenizeFuel] at hp
  | fuel + 1, c :: rest, i, p, hp => by
    simp only [tokenizeFuel] at hp
    by_cases hc1 : isWordRunChar c
    · rw [if_pos hc1] at hp
      rcases List.mem_cons.mp hp with rfl | hp
      · left
        simp only [List.all_cons, hc1, Bool.true_and]
        exact List.all_eq_true.mpr (fun x hx => List.mem_takeWhile_imp hx)
      · exact tokenizeFuel_classify fuel _ _ p hp
    · rw [if_neg hc1] at hp
      by_cases hc2 : isAsciiDigit c
      · rw [if_pos hc2] at hp
        rcases List.mem_cons.mp hp with rfl | hp
        · right; left
          simp only [List.all_cons, hc2, Bool.true_and]
          exact List.all_eq_true.mpr (fun x hx => List.mem_takeWhile_imp hx)
        · exact tokenizeFuel_classify fuel _ _ p hp
      · rw [if_neg hc2] at hp
        by_cases hc3 : (!isWordChar c && !isPySpace c) = true
        · rw [if_pos hc3] at hp
          rcases List.mem_cons.mp hp with rfl | hp
          · right; right
            refine ⟨c, rfl, ?_⟩
            simp only [Bool.and_eq_true, Bool.not_eq_true'] at hc3
            exact hc3.1
          · exact tokenizeFuel_classify fuel rest (i + 1) p hp
        · rw [if_neg hc3] at hp
          exact tokenizeFuel_classify fuel rest (i + 1) p hp

/-- Span/slice soundness of `tokenize_with_positions`. -/
theorem tokenize_mem (text : List Char) :
    ∀ p ∈ tokenize_with_positions text,
      p.2.1 < p.2.2 ∧ p.2.2 ≤ text.length ∧
      p.1 = (text.drop p.2.1).take (p.2.2 - p.2.1) ∧ p.1 ≠ [] ∧
      ∀ c ∈ p.1, isPySpace c = false := by
  intro p hp
  obtain ⟨h1, h2, h3, h4, h5, h6⟩ :=
    tokenizeFuel_mem text.length text 0 (Nat.le_refl _) p hp
  rw [Nat.sub_zero] at h4
  rw [Nat.zero_add] at h3
  exact ⟨h2, h3, h4, h5, h6⟩

/-- Tokens of `tokenize_with_positions` come in ascending non-overlapping
span order. -/
theorem tokenize_pairwise (text : List Char) :
    (tokenize_with_positions text).Pairwise (fun a b => a.2.2 ≤ b.2.1) :=
  tokenizeFuel_pairwise text.length text 0 (Nat.le_refl _)

/-! ### Inversion of the per-token correction decision -/

/-- Inversion: when the collection loop records a pair for a token, the
token passed every guard, and the pair is the replacement at the token's
span together with the Spelling issue. -/
theorem correctionFor_some_inv {D : SpellDict} {text : List Char}
    {mis : List (List Char)} {tok : List Char} {s e : Nat}
    {pr : Repl × Issue}
    (h : correctionFor D text mis (tok, s, e) = some pr) :
    ∃ suggestion, D.correction (lowerStr tok) = some suggestion ∧
      pr = ((s, e, suggestion),
        ⟨"Spelling".data, tok, suggestion, spellMessage tok suggestion⟩) ∧
      isWordStr tok = true ∧ mis.contains (lowerStr tok) = true ∧
      is_probable_proper_noun tok text = false ∧ 2 < tok.length ∧
      suggestion.isEmpty = false ∧ suggestion ≠ lowerStr tok := by
  simp only [correctionFor] at h
  split at h
  · exact absurd h (by simp)
  · next hword =>
    split at h
    · next hmis =>
      split at h
      · exact absurd h (by simp)
      · next hproper =>
        split at h
        · exact absurd h (by simp)
        · next hlen =>
          split at h
          · exact absurd h (by simp)
          · next suggestion hsugg =>
            split at h
            · next hcond =>
              simp only [Option.some.injEq] at h
              subst h
              simp only [Bool.and_eq_true, Bool.not_eq_true', bne_iff_ne,
                ne_eq] at hcond
              exact ⟨suggestion, hsugg, rfl, by simpa using hword, hmis,
                by simpa using hproper, by omega, hcond.1, hcond.2⟩
            · exact absurd h (by simp)
    · exact absurd h (by simp)

/-! ### Chained-edit infrastructure -/

/-- Every edit of a chain starts at or after the chain's lower bound. -/
theorem chainedEditsB_lower :
    ∀ {L : List Repl} {lo len : Nat}, chainedEditsB lo len L = true →
      ∀ p ∈ L, lo ≤ p.1
  | [], _, _, _, p, hp => by simp at hp
  | (s, e, r) :: rest, lo, len, h, p, hp => by
    simp only [chainedEditsB, Bool.and_eq_true, decide_eq_true_eq] at h
    rcases List.mem_cons.mp hp with rfl | hp
    · exact h.1.1.1
    · exact Nat.le_trans (by omega)
        (chainedEditsB_lower h.2 p hp)

/-- A chain of edits has strictly ascending start offsets. -/
theorem chainedEditsB_pairwise_lt :
    ∀ {L : List Repl} {lo len : Nat}, chainedEditsB lo len L = true →
      L.Pairwise (fun a b => a.1 < b.1)
  | [], _, _, _ => List.Pairwise.nil
  | (s, e, r) :: rest, lo, len, h => by
    simp only [chainedEditsB, Bool.and_eq_true, decide_eq_true_eq] at h
    refine List.Pairwise.cons ?_ (chainedEditsB_pairwise_lt h.2)
    intro b hb
    have := chainedEditsB_lower h.2 b hb
    omega

/-- Bounds plus pairwise non-overlap give a chain. -/
theorem chainedEditsB_of_pairwise :
    ∀ {L : List Repl} {lo len : Nat},
      (∀ p ∈ L, lo ≤ p.1 ∧ p.1 < p.2.1 ∧ p.2.1 ≤ len) →
      L.Pairwise (fun a b => a.2.1 ≤ b.1) →
      chainedEditsB lo len L = true
  | [], _, _, _, _ => rfl
  | (s, e, r) :: rest, lo, len, hb, hp => by
    obtain ⟨h1, h2⟩ := List.pairwise_cons.mp hp
    obtain ⟨hb1, hb2, hb3⟩ := hb (s, e, r) (List.mem_cons_self _ _)
    simp only [chainedEditsB, Bool.and_eq_true, decide_eq_true_eq]
    refine ⟨⟨⟨hb1, hb2⟩, hb3⟩, ?_⟩
    exact chainedEditsB_of_pairwise
      (fun p hp' => ⟨h1 p hp', (hb p (List.mem_cons_of_mem _ hp')).2⟩) h2

/-- The replacements collected by one spelling pass form a chain of
non-overlapping in-bounds edits in ascending order. -/
theorem spellReplacements_chained (D : SpellDict) (text : List Char) :
    chainedEditsB 0 text.length (spellReplacements D text) = true := by
  apply chainedEditsB_of_pairwise
  · intro p hp
    simp only [spellReplacements, collectCorrections, List.mem_map,
      List.mem_filterMap] at hp
    obtain ⟨pr, ⟨t, ht, hft⟩, hppr⟩ := hp
    obtain ⟨sugg, _, hpr, _⟩ := correctionFor_some_inv hft
    obtain ⟨hlt, hle, _⟩ := tokenize_mem text t ht
    subst hppr
    rw [hpr]
    exact ⟨Nat.zero_le _, hlt, hle⟩
  · simp only [spellReplacements, collectCorrections, List.pairwise_map,
      List.pairwise_filterMap, Option.mem_def]
    refine (tokenize_pairwise text).imp ?_
    intro t t' htt pr hpr pr' hpr'
    obtain ⟨sugg, _, hpr1, _⟩ := correctionFor_some_inv hpr
    obtain ⟨sugg', _, hpr2, _⟩ := correctionFor_some_inv hpr'
    rw [hpr1, hpr2]
    exact htt

/-! ### Back-to-front application -/

/-- Inserting below everything already in the list appends at the end. -/
theorem insertDescByStart_append (p : Repl) :
    ∀ {L : List Repl}, (∀ q ∈ L, ¬(q.1 ≤ p.1)) →
      insertDescByStart p L = L ++ [p]
  | [], _ => rfl
  | q :: rest, h => by
    simp only [insertDescByStart,
      if_neg (h q (List.mem_cons_self _ _)), List.cons_append]
    rw [insertDescByStart_append p
      (fun q' hq' => h q' (List.mem_cons_of_mem _ hq'))]

/-- On a list with strictly ascending starts, the descending stable sort
is exactly reversal. -/
theorem sortDesc_of_ascending :
    ∀ {L : List Repl}, L.Pairwise (fun a b => a.1 < b.1) →
      sortDescByStart L = L.reverse
  | [], _ => rfl
  | p :: rest, h => by
    obtain ⟨h1, h2⟩ := List.pairwise_cons.mp h
    show insertDescByStart p (sortDescByStart rest) = (p :: rest).reverse
    rw [sortDesc_of_ascending h2, List.reverse_cons]
    refine insertDescByStart_append p ?_
    intro q hq
    have := h1 q (List.mem_reverse.mp hq)
    omega

/-- Applying a chain of edits from the back (outermost `foldr` call is the
lowest edit) equals keeping `text[0:pos)` and then the simultaneous
application of the chain. -/
theorem foldr_splice_eq :
    ∀ (L : List Repl) (text : List Char) (pos : Nat),
      chainedEditsB pos text.length L = true →
      L.foldr (fun p acc => splice acc p) text
        = text.take pos ++ applyEditsSpec text L pos
  | [], text, pos, _ => by
    simp [applyEditsSpec]
  | (s, e, r) :: rest, text, pos, h => by
    simp only [chainedEditsB, Bool.and_eq_true, decide_eq_true_eq] at h
    obtain ⟨⟨⟨hpos, hse⟩, hlen⟩, hrest⟩ := h
    rw [List.foldr_cons, foldr_splice_eq rest text e hrest]
    show (text.take e ++ applyEditsSpec text rest e).take s ++ r ++
        (text.take e ++ applyEditsSpec text rest e).drop e
      = text.take pos ++ applyEditsSpec text ((s, e, r) :: rest) pos
    have hetk : (text.take e).length = e := by
      rw [List.length_take]; omega
    rw [List.take_append_of_le_length (by omega),
      List.take_take, Nat.min_def, if_pos (by omega : s ≤ e)]
    rw [List.drop_append_of_le_length (by omega),
      List.drop_eq_nil_of_le (by omega), List.nil_append]
    show text.take s ++ r ++ applyEditsSpec text rest e
      = text.take pos ++ ((text.take s).drop pos ++ r ++
          applyEditsSpec text rest e)
    have hsplit : text.take pos ++ (text.take s).drop pos = text.take s := by
      have : (text.take s).take pos = text.take pos := by
        rw [List.take_take, Nat.min_def, if_pos (by omega : pos ≤ s)]
      rw [← this, List.take_append_drop]
    simp only [← List.append_assoc]
    rw [hsplit]

/-- The code's replacement application (stable descending sort, then
left-to-right splicing) coincides with the simultaneous specification on
any ascending chain of edits. -/
theorem applyReplacements_eq_spec {text : List Char} {L : List Repl}
    (h : chainedEditsB 0 text.length L = true) :
    applyReplacements text L = applyEditsSpec text L 0 := by
  unfold applyReplacements
  rw [sortDesc_of_ascending (chainedEditsB_pairwise_lt h),
    List.foldl_reverse, foldr_splice_eq L text 0 h]
  simp

/-! ### Token-level helpers for the guard claims -/

/-- Two tokens with the same start offset are the same token. -/
theorem tokenize_start_inj {text : List Char} {t t' : Tok}
    (ht : t ∈ tokenize_with_positions text)
    (ht' : t' ∈ tokenize_with_positions text)
    (hs : t.2.1 = t'.2.1) : t = t' := by
  by_contra hne
  have hP : (tokenize_with_positions text).Pairwise
      (fun a b => a.2.1 ≠ b.2.1) := by
    refine (List.Pairwise.and_mem.mp (tokenize_pairwise text)).imp ?_
    rintro a b ⟨ha, _, hr⟩
    have := (tokenize_mem text a ha).1
    omega
  exact List.Pairwise.forall (fun _ _ h => Ne.symm h) hP ht ht' hne hs

/-- Every collected replacement is produced by a token of the text, at
that token's span. -/
theorem mem_spellReplacements_inv {D : SpellDict} {text : List Char}
    {r : Repl} (hr : r ∈ spellReplacements D text) :
    ∃ t ∈ tokenize_with_positions text, ∃ pr,
      correctionFor D text (misspelledOf D text) t = some pr ∧ pr.1 = r := by
  simp only [spellReplacements, collectCorrections, List.mem_map,
    List.mem_filterMap] at hr
  obtain ⟨pr, ⟨t, ht, hft⟩, hppr⟩ := hr
  exact ⟨t, ht, pr, hft, hppr⟩

/-- C1: the spelling pass collects non-overlapping ascending in-bounds
replacement triples against the original text, and applying them to a copy
in descending-start order (the code's `sorted(..., reverse=True)` loop)
yields exactly the simultaneous-splice result: every untouched region of
the original is preserved and every replaced span shows its replacement,
no offset being invalidated by an earlier splice. -/
theorem safe_spell_correct_back_to_front (D : SpellDict) (text : List Char) :
    chainedEditsB 0 text.length (spellReplacements D text) = true ∧
    (safe_spell_correct D text).1
      = applyEditsSpec text (spellReplacements D text) 0 :=
  ⟨spellReplacements_chained D text,
    applyReplacements_eq_spec (spellReplacements_chained D text)⟩

/-- C2: a token the do-not-touch heuristic flags (fully uppercase of
length at most 6, initial uppercase, or containing `@`) is never corrected:
the collection loop records nothing for it — no replacement, no Spelling
issue — and no collected replacement starts at its span, whatever the
dictionary reports. -/
theorem proper_noun_guard (D : SpellDict) (text tok : List Char) (s e : Nat)
    (hmem : (tok, s, e) ∈ tokenize_with_positions text)
    (hpn : is_probable_proper_noun tok text = true) :
    correctionFor D text (misspelledOf D text) (tok, s, e) = none ∧
    ∀ r ∈ spellReplacements D text, r.1 ≠ s := by
  constructor
  · simp [correctionFor, hpn]
  · intro r hr hrs
    obtain ⟨t, ht, pr, hft, hprr⟩ := mem_spellReplacements_inv hr
    obtain ⟨sugg, _, hpr, _, _, hnpn, _⟩ := correctionFor_some_inv hft
    have hts : t.2.1 = s := by
      rw [← hrs, ← hprr, hpr]
    have : t = (tok, s, e) := tokenize_start_inj ht hmem hts
    rw [this] at hnpn
    rw [hnpn] at hpn
    exact Bool.false_ne_true hpn

/-- Witness for C2 at a concrete input: `"Oman"` is never replaced even
though the witness dictionary flags every word as unknown. -/
theorem proper_noun_guard_witness :
    correctionFor allUnknownDict "Oman is nice".data
        (misspelledOf allUnknownDict "Oman is nice".data)
        ("Oman".data, 0, 4) = none ∧
    ∀ r ∈ spellReplacements allUnknownDict "Oman is nice".data, r.1 ≠ 0 :=
  proper_noun_guard allUnknownDict "Oman is nice".data "Oman".data 0 4
    (by decide) (by decide)

/-- C3: a token of length at most 2 is never corrected: the collection
loop records nothing for it — no replacement, no Spelling issue — and no
collected replacement starts at its span, even when the dictionary flags
its lower-cased form as unknown. -/
theorem short_word_guard (D : SpellDict) (text tok : List Char) (s e : Nat)
    (hmem : (tok, s, e) ∈ tokenize_with_positions text)
    (hlen : tok.length ≤ 2) :
    correctionFor D text (misspelledOf D text) (tok, s, e) = none ∧
    ∀ r ∈ spellReplacements D text, r.1 ≠ s := by
  constructor
  · simp [correctionFor, hlen]
  · intro r hr hrs
    obtain ⟨t, ht, pr, hft, hprr⟩ := mem_spellReplacements_inv hr
    obtain ⟨sugg, _, hpr, _, _, _, hlong, _⟩ := correctionFor_some_inv hft
    have hts : t.2.1 = s := by
      rw [← hrs, ← hprr, hpr]
    have : t = (tok, s, e) := tokenize_start_inj ht hmem hts
    rw [this] at hlong
    simp only at hlong
    omega

/-- Witness for C3 at a concrete input: lower-case `"an"` is never
replaced even though the witness dictionary flags every word as unknown. -/
theorem short_word_guard_witness :
    correctionFor allUnknownDict "an apple".data
        (misspelledOf allUnknownDict "an apple".data)
        ("an".data, 0, 2) = none ∧
    ∀ r ∈ spellReplacements allUnknownDict "an apple".data, r.1 ≠ 0 :=
  short_word_guard allUnknownDict "an apple".data "an".data 0 2
    (by decide) (by decide)

/-! ### Misspelled-set membership -/

/-- An alphabetic token of the text is one of its scanned words. -/
theorem mem_wordsOf {text tok : List Char} {s e : Nat}
    (hmem : (tok, s, e) ∈ tokenize_with_positions text)
    (hw : isWordStr tok = true) : tok ∈ wordsOf text := by
  simp only [wordsOf, List.mem_map, List.mem_filter]
  exact ⟨(tok, s, e), ⟨hmem, hw⟩, rfl⟩

/-- Membership in the queried misspelled subset is membership among the
lower-cased words plus the dictionary judgement. -/
theorem contains_misspelledOf (D : SpellDict) (text w : List Char) :
    (misspelledOf D text).contains w = true ↔
      w ∈ (wordsOf text).map lowerStr ∧ D.isUnknown w = true := by
  simp [misspelledOf, List.contains, List.elem_iff, List.mem_filter]

/-- For a word token of the text, the misspelled-subset test coincides
with the dictionary's pointwise judgement of its lower-cased form. -/
theorem contains_misspelledOf_eq {D : SpellDict} {text tok : List Char}
    {s e : Nat} (hmem : (tok, s, e) ∈ tokenize_with_positions text)
    (hw : isWordStr tok = true) :
    (misspelledOf D text).contains (lowerStr tok)
      = D.isUnknown (lowerStr tok) := by
  cases hu : D.isUnknown (lowerStr tok) with
  | true =>
    exact (contains_misspelledOf D text (lowerStr tok)).mpr
      ⟨List.mem_map_of_mem _ (mem_wordsOf hmem hw), hu⟩
  | false =>
    cases hc : (misspelledOf D text).contains (lowerStr tok) with
    | false => rfl
    | true =>
      have := ((contains_misspelledOf D text (lowerStr tok)).mp hc).2
      rw [this] at hu
      exact absurd hu (by simp)

/-- C4: the spelling pass emits a Spelling issue for a token exactly when
the token is an alphabetic word whose lower-cased form the dictionary
judges unknown, the do-not-touch heuristic does not fire, the token is
longer than 2 characters, and the dictionary returns a (nonempty)
suggestion differing from the lower-cased token; the issue is exactly the
record with message `Possible misspelling: '<original>' → '<suggestion>'`,
and the issue list is the left-to-right token scan filtered by that
condition. -/
theorem spelling_issue_characterization (D : SpellDict) (text : List Char) :
    (safe_spell_correct D text).2
      = (tokenize_with_positions text).filterMap (claimSpellIssue D text) := by
  show (collectCorrections D text).map (·.2) = _
  rw [collectCorrections, List.map_filterMap]
  refine List.filterMap_congr ?_
  intro t ht
  obtain ⟨tok, s, e⟩ := t
  by_cases hw : isWordStr tok = true
  · have hcm : (misspelledOf D text).contains (lowerStr tok)
        = D.isUnknown (lowerStr tok) := contains_misspelledOf_eq ht hw
    cases hD : D.correction (lowerStr tok) with
    | none => simp [correctionFor, claimSpellIssue, hw, hcm, hD]
    | some sugg =>
      by_cases hu : D.isUnknown (lowerStr tok) = true
      · have hin : lowerStr tok ∈ misspelledOf D text := by
          have hct : (misspelledOf D text).contains (lowerStr tok) = true := by
            rw [hcm, hu]
          simpa [List.contains, List.elem_iff] using hct
        by_cases hpn : is_probable_proper_noun tok text = true
        · simp [correctionFor, claimSpellIssue, hw, hin, hu, hpn, hD]
        · have hpn' : is_probable_proper_noun tok text = false := by
            simpa using hpn
          by_cases hlen : tok.length ≤ 2
          · have hnlt : ¬(2 < tok.length) := by omega
            simp [correctionFor, claimSpellIssue, hw, hin, hu, hpn', hlen,
              hnlt, hD]
          · have hlt : 2 < tok.length := by omega
            by_cases hse : sugg = []
            · simp [correctionFor, claimSpellIssue, hw, hin, hu, hpn', hlen,
                hlt, hD, hse]
            · by_cases hsl : sugg = lowerStr tok
              · simp [correctionFor, claimSpellIssue, hw, hin, hu, hpn',
                  hlen, hlt, hD, hse, hsl]
              · simp [correctionFor, claimSpellIssue, hw, hin, hu, hpn',
                  hlen, hlt, hD, hse, hsl]
      · have hu' : D.isUnknown (lowerStr tok) = false := by simpa using hu
        have hnin : lowerStr tok ∉ misspelledOf D text := by
          intro hmm
          have hct : (misspelledOf D text).contains (lowerStr tok) = true := by
            simpa [List.contains, List.elem_iff] using hmm
          rw [hcm, hu'] at hct
          exact absurd hct (by simp)
        simp [correctionFor, claimSpellIssue, hw, hnin, hu', hD]
  · have hw' : isWordStr tok = false := by simpa using hw
    cases hD : D.correction (lowerStr tok) with
    | none => simp [correctionFor, claimSpellIssue, hw', hD]
    | some sugg => simp [correctionFor, claimSpellIssue, hw', hD]

/-- C5: on every input the tokenizer yields a finite token sequence in
document order: spans are non-overlapping and ascending, each span's slice
of the input is the recorded surface text, no token is zero-length, and no
whitespace character belongs to any token. -/
theorem tokenize_spans_sound (text : List Char) :
    (∀ p ∈ tokenize_with_positions text,
      p.2.1 < p.2.2 ∧ p.2.2 ≤ text.length ∧
      p.1 = (text.drop p.2.1).take (p.2.2 - p.2.1) ∧ p.1 ≠ [] ∧
      ∀ c ∈ p.1, isPySpace c = false) ∧
    (tokenize_with_positions text).Pairwise (fun a b => a.2.2 ≤ b.2.1) :=
  ⟨tokenize_mem text, tokenize_pairwise text⟩

/-- Witness for C5 at a concrete input and token. -/
theorem tokenize_spans_sound_witness :
    4 < 8 ∧ "defg".data = ("abc defg!".data.drop 4).take (8 - 4) :=
  ⟨((tokenize_spans_sound "abc defg!".data).1 ("defg".data, 4, 8)
      (by decide)).1,
   ((tokenize_spans_sound "abc defg!".data).1 ("defg".data, 4, 8)
      (by decide)).2.2.1⟩

/-! ### Whitespace-only inputs -/

/-- The tokenizer skips a whitespace-only text entirely. -/
theorem tokenizeFuel_all_space :
    ∀ (fuel : Nat) (l : List Char) (i : Nat),
      (∀ c ∈ l, isPySpace c = true) → tokenizeFuel fuel l i = []
  | 0, l, _, _ => by cases l <;> rfl
  | _ + 1, [], _, _ => rfl
  | fuel + 1, c :: rest, i, h => by
    have hc := h c (List.mem_cons_self _ _)
    have hrest : ∀ c' ∈ rest, isPySpace c' = true :=
      fun c' hc' => h c' (List.mem_cons_of_mem _ hc')
    simp [tokenizeFuel, (space_not_run_char hc).1, (space_not_run_char hc).2,
      hc]
    exact tokenizeFuel_all_space fuel rest (i + 1) hrest

/-- The spelling corrector is the identity, with no issues, on
whitespace-only text. -/
theorem safe_spell_correct_space {D : SpellDict} {text : List Char}
    (h : ∀ c ∈ text, isPySpace c = true) :
    safe_spell_correct D text = (text, []) := by
  have htok : tokenize_with_positions text = [] :=
    tokenizeFuel_all_space text.length text 0 h
  simp [safe_spell_correct, collectCorrections, htok, applyReplacements,
    sortDescByStart]

/-- All characters of all lines of the line-splitting scan come from the
input or the pending accumulator. -/
theorem splitlinesAux_space :
    ∀ (l acc : List Char),
      (∀ c ∈ l, isPySpace c = true) → (∀ c ∈ acc, isPySpace c = true) →
      ∀ line ∈ splitlinesAux l acc, ∀ c ∈ line, isPySpace c = true
  | [], acc, _, hacc, line, hline => by
    simp only [splitlinesAux] at hline
    split at hline
    · simp at hline
    · simp only [List.mem_singleton] at hline
      subst hline
      exact fun c hc => hacc c (List.mem_reverse.mp hc)
  | c0 :: rest, acc, hl, hacc, line, hline => by
    have hc0 := hl c0 (List.mem_cons_self _ _)
    have hrest : ∀ c ∈ rest, isPySpace c = true :=
      fun c h => hl c (List.mem_cons_of_mem _ h)
    have haccrev : ∀ c ∈ acc.reverse, isPySpace c = true :=
      fun c h => hacc c (List.mem_reverse.mp h)
    cases rest with
    | nil =>
      simp only [splitlinesAux] at hline
      by_cases hr : c0 = '\r'
      · rw [if_pos hr] at hline
        simp only [List.mem_singleton] at hline
        subst hline
        exact haccrev
      · rw [if_neg hr] at hline
        by_cases hb : isLineBreak c0 = true
        · rw [if_pos hb] at hline
          rcases List.mem_cons.mp hline with rfl | hline
          · exact haccrev
          · simp [splitlinesAux] at hline
        · rw [if_neg hb] at hline
          simp [splitlinesAux] at hline
          subst hline
          intro c hc
          rcases List.mem_append.mp hc with hc | hc
          · exact haccrev c hc
          · rw [List.mem_singleton.mp hc]
            exact hc0
    | cons r2 rest2 =>
      simp only [splitlinesAux] at hline
      by_cases hr : c0 = '\r'
      · rw [if_pos hr] at hline
        by_cases hn : r2 = '\n'
        · rw [if_pos hn] at hline
          rcases List.mem_cons.mp hline with rfl | hline
          · exact haccrev
          · exact splitlinesAux_space rest2 []
              (fun c h => hrest c (List.mem_cons_of_mem _ h)) (by simp)
              line hline
        · rw [if_neg hn] at hline
          rcases List.mem_cons.mp hline with rfl | hline
          · exact haccrev
          · exact splitlinesAux_space (r2 :: rest2) [] hrest (by simp)
              line hline
      · rw [if_neg hr] at hline
        by_cases hb : isLineBreak c0 = true
        · rw [if_pos hb] at hline
          rcases List.mem_cons.mp hline with rfl | hline
          · exact haccrev
          · exact splitlinesAux_space (r2 :: rest2) [] hrest (by simp)
              line hline
        · rw [if_neg hb] at hline
          exact splitlinesAux_space (r2 :: rest2) (c0 :: acc) hrest
            (fun c h => by
              rcases List.mem_cons.mp h with rfl | h
              · exact hc0
              · exact hacc c h)
            line hline

/-- Stripping a whitespace-only line empties it. -/
theorem pyStrip_space {l : List Char}
    (h : ∀ c ∈ l, isPySpace c = true) : pyStrip l = [] := by
  unfold pyStrip
  rw [List.dropWhile_eq_nil_iff.mpr h]
  simp

/-- Joining the stripped non-blank lines of a whitespace-only text yields
the empty string. -/
theorem joinedOf_space {text : List Char}
    (h : ∀ c ∈ text, isPySpace c = true) : joinedOf text = [] := by
  have hlines : ∀ line ∈ pySplitlines text, ∀ c ∈ line, isPySpace c = true :=
    splitlinesAux_space text [] h (by simp)
  have hstrip :
      ((pySplitlines text).map pyStrip).filter (fun l => !l.isEmpty) = [] := by
    rw [List.filter_eq_nil_iff]
    intro a ha
    simp only [List.mem_map] at ha
    obtain ⟨line, hline, rfl⟩ := ha
    simp [pyStrip_space (hlines line hline)]
  simp [joinedOf, hstrip, List.intercalate]

/-- The grammar checker emits nothing on whitespace-only text. -/
theorem basic_grammar_checks_space {text : List Char}
    (h : ∀ c ∈ text, isPySpace c = true) : basic_grammar_checks text = [] := by
  unfold basic_grammar_checks
  rw [joinedOf_space h]
  decide

/-- C6: both the spelling corrector and the grammar checker are total over
all strings; on every whitespace-only text (the empty string included) the
spelling corrector returns the text unchanged with no issues — in
particular `("", [])` on the empty string — and the grammar checker
returns `[]`, no indexing being reachable. -/
theorem corrector_total_on_whitespace (D : SpellDict) (text : List Char)
    (h : ∀ c ∈ text, isPySpace c = true) :
    safe_spell_correct D text = (text, []) ∧
    basic_grammar_checks text = [] ∧
    safe_spell_correct D [] = ([], []) ∧
    basic_grammar_checks [] = [] :=
  ⟨safe_spell_correct_space h, basic_grammar_checks_space h,
    safe_spell_correct_space (by simp), basic_grammar_checks_space (by simp)⟩

/-- Witness for C6 at a concrete whitespace-only input. -/
theorem corrector_total_on_whitespace_witness :
    safe_spell_correct allUnknownDict " \n\t ".data = (" \n\t ".data, []) ∧
    basic_grammar_checks " \n\t ".data = [] ∧
    safe_spell_correct allUnknownDict [] = ([], []) ∧
    basic_grammar_checks [] = [] :=
  corrector_total_on_whitespace allUnknownDict " \n\t ".data (by decide)

/-! ### Leftmost-match search -/

/-- `find?` over `range` returns the least index satisfying the
predicate. -/
theorem find_range_first :
    ∀ (n : Nat) (p : Nat → Bool) (i : Nat),
      (List.range n).find? p = some i → p i = true ∧ ∀ j < i, p j = false := by
  intro n
  induction n with
  | zero => intro p i h; simp [List.range_zero] at h
  | succ n ih =>
    intro p i h
    rw [List.range_succ, List.find?_append] at h
    cases hf : (List.range n).find? p with
    | some j =>
      rw [hf] at h
      have : j = i := by simpa using h
      subst this
      exact ih p j hf
    | none =>
      rw [hf, Option.none_or, List.find?_cons] at h
      cases hp : p n with
      | true =>
        rw [hp] at h
        have : n = i := by simpa using h
        subst this
        refine ⟨hp, ?_⟩
        intro j hj
        have := List.find?_eq_none.mp hf j (List.mem_range.mpr hj)
        simpa using this
      | false =>
        rw [hp] at h
        simp at h

/-- C7: each rule of the fixed table is evaluated independently; a rule
whose pattern matches emits exactly one Grammar issue, whose `Original` is
the leftmost match of that pattern in the lower-cased joined text (the
search returns the first matching position, with nothing matching
earlier); concretely, `"oman are a nice place."` yields a Grammar issue
suggesting `"Oman is"`, a text with two occurrences of `"evry"` yields
exactly one issue for it, and two distinct rules fire together on
`"Evry contry story."`. -/
theorem grammar_rules_first_match :
    (∀ (text pat : List Char) (i : Nat), searchWordPat text pat = some i →
      wordPatMatchAt text pat i = true ∧
      ∀ j < i, wordPatMatchAt text pat j = false) ∧
    (⟨"Grammar".data, "oman are".data, "Oman is".data,
        "Subject–verb agreement: 'Oman is' not 'Oman are'.".data⟩
      ∈ basic_grammar_checks "oman are a nice place.".data) ∧
    (basic_grammar_checks "He said evry day evry way.".data).countP
        (fun iss => iss.original == "evry".data) = 1 ∧
    (⟨"Grammar".data, "evry".data, "every".data,
        "Common misspelling: 'every'.".data⟩
      ∈ basic_grammar_checks "Evry contry story.".data) ∧
    (⟨"Grammar".data, "contry".data, "country".data,
        "Common misspelling: 'country'.".data⟩
      ∈ basic_grammar_checks "Evry contry story.".data) := by
  refine ⟨?_, by decide, by decide, by decide, by decide⟩
  intro text pat i h
  exact find_range_first (text.length + 1) (wordPatMatchAt text pat) i h

/-- Witness for C7: the leftmost `"evry"` match in `"say evry"` is at
offset 4 and no earlier offset matches. -/
theorem grammar_rules_first_match_witness :
    wordPatMatchAt "say evry".data "evry".data 4 = true ∧
    ∀ j < 4, wordPatMatchAt "say evry".data "evry".data j = false :=
  grammar_rules_first_match.1 "say evry".data "evry".data 4 (by decide)

/-- C8: on `"evry contry need educaton"`, with a dictionary that (as the
spec's example presupposes) flags exactly `"educaton"` — unknown, with
suggestion `"education"` — and leaves `"evry"`, `"contry"`, `"need"`
unflagged, the spelling pass yields exactly one Spelling issue (for
`"educaton"`), and the grammar rule layer on the spelling-corrected text
detects the `"evry"`→`"every"` and `"contry"`→`"country"` patterns as
Grammar issues. -/
theorem evry_contry_educaton_example (D : SpellDict)
    (h1 : D.isUnknown "evry".data = false)
    (h2 : D.isUnknown "contry".data = false)
    (h3 : D.isUnknown "need".data = false)
    (h4 : D.isUnknown "educaton".data = true)
    (h5 : D.correction "educaton".data = some "education".data) :
    (safe_spell_correct D "evry contry need educaton".data).2
      = [⟨"Spelling".data, "educaton".data, "education".data,
          spellMessage "educaton".data "education".data⟩] ∧
    ⟨"Grammar".data, "evry".data, "every".data,
        "Common misspelling: 'every'.".data⟩
      ∈ basic_grammar_checks
          (safe_spell_correct D "evry contry need educaton".data).1 ∧
    ⟨"Grammar".data, "contry".data, "country".data,
        "Common misspelling: 'country'.".data⟩
      ∈ basic_grammar_checks
          (safe_spell_correct D "evry contry need educaton".data).1 := by
  have hmis : misspelledOf D "evry contry need educaton".data
      = ["educaton".data] := by
    have hwords : (wordsOf "evry contry need educaton".data).map lowerStr
        = ["evry".data, "contry".data, "need".data, "educaton".data] := by
      decide
    simp only [misspelledOf]
    rw [hwords]
    simp [List.filter_cons, h1, h2, h3, h4]
  have htok : tokenize_with_positions "evry contry need educaton".data
      = [("evry".data, 0, 4), ("contry".data, 5, 11), ("need".data, 12, 16),
         ("educaton".data, 17, 25)] := by decide
  have he1 : correctionFor D "evry contry need educaton".data
      ["educaton".data] ("evry".data, 0, 4) = none := by
    simp +decide [correctionFor]
  have he2 : correctionFor D "evry contry need educaton".data
      ["educaton".data] ("contry".data, 5, 11) = none := by
    simp +decide [correctionFor]
  have he3 : correctionFor D "evry contry need educaton".data
      ["educaton".data] ("need".data, 12, 16) = none := by
    simp +decide [correctionFor]
  have he4 : correctionFor D "evry contry need educaton".data
      ["educaton".data] ("educaton".data, 17, 25)
      = some ((17, 25, "education".data),
          ⟨"Spelling".data, "educaton".data, "education".data,
            spellMessage "educaton".data "education".data⟩) := by
    simp +decide [correctionFor,
      (show lowerStr "educaton".data = "educaton".data by decide), h5]
  have hcoll : collectCorrections D "evry contry need educaton".data
      = [((17, 25, "education".data),
          ⟨"Spelling".data, "educaton".data, "education".data,
            spellMessage "educaton".data "education".data⟩)] := by
    simp only [collectCorrections, htok, hmis, List.filterMap_cons,
      List.filterMap_nil, he1, he2, he3, he4]
  have hssc : safe_spell_correct D "evry contry need educaton".data
      = ("evry contry need education".data,
         [⟨"Spelling".data, "educaton".data, "education".data,
           spellMessage "educaton".data "education".data⟩]) := by
    simp only [safe_spell_correct, hcoll]
    decide
  refine ⟨?_, ?_, ?_⟩
  · rw [hssc]
  · rw [hssc]
    decide
  · rw [hssc]
    decide

/-- Witness for C8 with the concrete dictionary of the example. -/
theorem evry_contry_educaton_example_witness :
    (safe_spell_correct eduDict "evry contry need educaton".data).2
      = [⟨"Spelling".data, "educaton".data, "education".data,
          spellMessage "educaton".data "education".data⟩] ∧
    ⟨"Grammar".data, "evry".data, "every".data,
        "Common misspelling: 'every'.".data⟩
      ∈ basic_grammar_checks
          (safe_spell_correct eduDict "evry contry need educaton".data).1 ∧
    ⟨"Grammar".data, "contry".data, "country".data,
        "Common misspelling: 'country'.".data⟩
      ∈ basic_grammar_checks
          (safe_spell_correct eduDict "evry contry need educaton".data).1 :=
  evry_contry_educaton_example eduDict (by decide) (by decide) (by decide)
    (by decide) (by decide)

/-- Any Spelling issue produced by a spelling pass concerns a token whose
lower-cased form the dictionary judges unknown. -/
theorem mem_spell_issues_isUnknown {D : SpellDict} {text : List Char}
    {iss : Issue} (h : iss ∈ (safe_spell_correct D text).2) :
    D.isUnknown (lowerStr iss.original) = true := by
  have h' : iss ∈ (collectCorrections D text).map (·.2) := h
  simp only [collectCorrections, List.mem_map, List.mem_filterMap] at h'
  obtain ⟨pr, ⟨t, ht, hft⟩, hpr2⟩ := h'
  obtain ⟨sugg, _, hpr, _, hmisc, _⟩ := correctionFor_some_inv hft
  have hunk := ((contains_misspelledOf D text (lowerStr t.1)).mp hmisc).2
  have horig : iss.original = t.1 := by rw [← hpr2, hpr]
  rw [horig]
  exact hunk

/-- C9: when the dictionary does not flag a suggestion's lower-cased form
as unknown, re-running the spelling corrector on the corrector's own
output emits no Spelling issue for any token spelled like that suggestion
— every emitted issue concerns a token the dictionary flags, so no
corrected-to-known-good token is flagged again. -/
theorem no_reissue_for_known_suggestion (D : SpellDict)
    (text sugg : List Char)
    (hk : D.isUnknown (lowerStr sugg) = false) :
    ∀ iss ∈ (safe_spell_correct D (safe_spell_correct D text).1).2,
      lowerStr iss.original ≠ lowerStr sugg := by
  intro iss hiss heq
  have hu := mem_spell_issues_isUnknown hiss
  rw [heq, hk] at hu
  exact absurd hu (by simp)

/-- Witness for C9: with the flip dictionary, the second run on the output
of the first run emits an issue, and it is not for the known-good word
`"cccc"`. -/
theorem no_reissue_for_known_suggestion_witness :
    lowerStr (Issue.mk "Spelling".data "bbbb".data "aaaa".data
        (spellMessage "bbbb".data "aaaa".data)).original
      ≠ lowerStr "cccc".data :=
  no_reissue_for_known_suggestion flipDict "aaaa".data "cccc".data (by decide)
    ⟨"Spelling".data, "bbbb".data, "aaaa".data,
      spellMessage "bbbb".data "aaaa".data⟩ (by decide)

/-- C10: the `@` rule of the do-not-touch heuristic is unreachable — the
tokenizer emits `@` only as a single-symbol token, so every token made of
`[A-Za-z']` characters (the only tokens the spelling loop passes to the
heuristic) is free of `@`, and on such tokens the heuristic coincides with
the disjunction of its two uppercase rules alone. -/
theorem at_sign_rule_unreachable :
    ∀ (text tok : List Char) (s e : Nat),
      ((tok, s, e) ∈ tokenize_with_positions text → '@' ∈ tok →
        tok = ['@']) ∧
      (tok.all isWordRunChar = true →
        is_probable_proper_noun tok text
          = ((pyIsUpper tok && decide (tok.length ≤ 6))
              || firstCharIsUpper tok)) := by
  intro text tok s e
  constructor
  · intro hmem hat
    rcases tokenizeFuel_classify text.length text 0 (tok, s, e) hmem with
      hall | hall | ⟨c, hc, _⟩
    · exact absurd (List.all_eq_true.mp hall '@' hat) (by decide)
    · exact absurd (List.all_eq_true.mp hall '@' hat) (by decide)
    · subst hc
      simp only [List.mem_singleton] at hat
      rw [← hat]
  · intro hall
    have hnotin : '@' ∉ tok :=
      fun hin => absurd (List.all_eq_true.mp hall '@' hin) (by decide)
    by_cases h1 : (pyIsUpper tok && decide (tok.length ≤ 6)) = true
    · simp [is_probable_proper_noun, h1]
    · have h1' : (pyIsUpper tok && decide (tok.length ≤ 6)) = false := by
        simpa using h1
      cases h2 : firstCharIsUpper tok with
      | true => simp [is_probable_proper_noun, h1', h2]
      | false => simp [is_probable_proper_noun, h1', h2, hnotin]

/-- Witness for C10: the `@` of `"a@b"` is its own token, and on the
alphabetic token `"Oman"` the heuristic equals its uppercase rules. -/
theorem at_sign_rule_unreachable_witness :
    "@".data = ['@'] ∧
    is_probable_proper_noun "Oman".data "Oman town".data
      = ((pyIsUpper "Oman".data && decide ("Oman".data.length ≤ 6))
          || firstCharIsUpper "Oman".data) :=
  ⟨(at_sign_rule_unreachable "a@b".data "@".data 1 2).1 (by decide)
      (by decide),
   (at_sign_rule_unreachable "Oman town".data "Oman".data 0 4).2 (by decide)⟩

end EnglishApp
